import Mathlib

/-!
Shallow embedding of the math-trade solver suite: the want-graph builder,
the cycle enumerators, the greedy / ILP / genetic selectors, the exchange
reconstructors, the reporters, and the wants-file parser's duplicate-id
handling.  Python dictionaries are modelled as insertion-ordered
association lists, machine arithmetic as Nat / Rat, and the external
back-ends (networkx simple_cycles, the CBC ILP solver, the bipartite
matcher, the random source) as explicitly passed outcomes or as a
reference enumeration defined below.
-/

namespace MathTrade

/-- Directed graph over vertices of type `α`: a node list and a directed
edge list, as built by `build_exchange_graph` (networkx DiGraph). -/
structure Digraph (α : Type) where
  nodes : List α
  edges : List (α × α)

variable {α : Type} [DecidableEq α]

/-- Declarative simple-cycle predicate: the list of vertices is nonempty,
has no repeats, consecutive vertices are joined by edges, and the last
vertex closes back to the first. -/
def IsCycleOf (edges : List (α × α)) (c : List α) : Prop :=
  c ≠ [] ∧ c.Nodup ∧ List.Chain' (fun a b => (a, b) ∈ edges) c ∧
    ∀ x ∈ c.getLast?, ∀ h ∈ c.head?, (x, h) ∈ edges

instance (edges : List (α × α)) (c : List α) : Decidable (IsCycleOf edges c) := by
  unfold IsCycleOf; infer_instance

/-- Depth-first search step of the reference simple-cycle enumeration:
`cur` is the vertex the search currently stands on, `path` the reversed
list of previously visited vertices (so `start` sits at its end).  A
cycle is recorded whenever an edge closes back to `start`; the search
extends only to `allowed` vertices not yet on the path. -/
def dfsCycles (edges : List (α × α)) (allowed : List α) (start : α) :
    Nat → α → List α → List (List α)
  | 0, _, _ => []
  | fuel + 1, cur, path =>
      (if (cur, start) ∈ edges then [(cur :: path).reverse] else []) ++
        ((allowed.filter
            (fun v => decide (v ∉ cur :: path) && decide ((cur, v) ∈ edges))).map
          (fun v => dfsCycles edges allowed start fuel v (cur :: path))).flatten

/-- Reference enumeration of the simple cycles of a graph, rooting every
cycle at its earliest vertex in node order: the model of networkx
`simple_cycles`, which the three repository enumerators filter. -/
def simpleCyclesAux (edges : List (α × α)) : List α → List (List α)
  | [] => []
  | v :: rest =>
      dfsCycles edges (v :: rest) v (v :: rest).length v [] ++ simpleCyclesAux edges rest

/-- All simple directed cycles of `G`, each once in a canonical rotation. -/
def simpleCycles (G : Digraph α) : List (List α) :=
  simpleCyclesAux G.edges G.nodes

namespace Tradegenie

/-- Embedding of `tradegenie.find_cycles`: keep the simple cycles of
length between 2 and `max_cycle_length`. -/
def find_cycles (G : Digraph α) (max_cycle_length : Nat) : List (List α) :=
  (simpleCycles G).filter (fun c => decide (2 ≤ c.length ∧ c.length ≤ max_cycle_length))

end Tradegenie

namespace Greedy

/-- Embedding of `greedy_algorithm.find_cycles`: keep the simple cycles of
length between 2 and `max_cycle_length`. -/
def find_cycles (G : Digraph α) (max_cycle_length : Nat) : List (List α) :=
  (simpleCycles G).filter (fun c => decide (2 ≤ c.length ∧ c.length ≤ max_cycle_length))

end Greedy

namespace GeneticMax

/-- Embedding of `genetic_algorithm_max_players.find_all_cycles`: keep the
simple cycles of length at most `max_cycle_length` — the source imposes no
lower bound on the length. -/
def find_all_cycles (G : Digraph α) (max_cycle_length : Nat) : List (List α) :=
  (simpleCycles G).filter (fun c => decide (c.length ≤ max_cycle_length))

end GeneticMax

/-- Entry of the `items` table of an instance file: display name and owner. -/
structure ItemInfo where
  name : String
  owner : String
deriving DecidableEq

/-- Per-user transaction record as grouped by the reconstructors:
`(user, (items_given, items_received))`, in dictionary insertion order. -/
abbrev TransMap := List (String × (List String × List String))

/-- Appending one give and one receive to a user's entry of the
transaction dictionary, creating the entry if missing — the shape shared
by every `user_transactions[...]  .append(...)` pair in the sources. -/
def addGivenReceived (ut : TransMap) (user given received : String) : TransMap :=
  match ut with
  | [] => [(user, ([given], [received]))]
  | (u, gr) :: rest =>
      if u = user then (u, (gr.1 ++ [given], gr.2 ++ [received])) :: rest
      else (u, gr) :: addGivenReceived rest user given received

/-- A transaction dictionary is balanced when every user's given list is
exactly as long as their received list. -/
def Balanced (ut : TransMap) : Prop :=
  ∀ e ∈ ut, e.2.1.length = e.2.2.length

namespace Tradegenie

/-- One iteration of the inner loop of `tradegenie.reconstruct_exchanges`:
the owner of `cycle[i]` gives that item and receives `cycle[(i+1) % n]`;
a record whose giver display name equals its receiver display name is
skipped with a warning. -/
def reconstruct_step (item_owner item_name user_lower_to_original : List (String × String))
    (cycle : List String) (ut : TransMap) (i : Nat) : TransMap :=
  let n := cycle.length
  let giver_item := cycle.getD i ""
  let receiver_item := cycle.getD ((i + 1) % n) ""
  let giver_user_lower := (item_owner.lookup giver_item).getD ""
  let receiver_user_lower := (item_owner.lookup receiver_item).getD ""
  let giver_user := (user_lower_to_original.lookup giver_user_lower).getD "Unknown"
  let receiver_user := (user_lower_to_original.lookup receiver_user_lower).getD "Unknown"
  if giver_user = receiver_user then ut
  else
    let item_given := (item_name.lookup giver_item).getD "Unknown"
    let item_received := (item_name.lookup receiver_item).getD "Unknown"
    addGivenReceived ut giver_user item_given item_received

/-- Embedding of `tradegenie.reconstruct_exchanges`. -/
def reconstruct_exchanges (selected_cycles : List (List String))
    (item_owner item_name user_lower_to_original : List (String × String)) : TransMap :=
  selected_cycles.foldl
    (fun ut cycle =>
      (List.range cycle.length).foldl
        (reconstruct_step item_owner item_name user_lower_to_original cycle) ut)
    []

end Tradegenie

namespace GeneticMax

/-- One iteration of the inner loop of
`genetic_algorithm_max_players.reconstruct_exchanges`: identical to the
trade-genie reconstructor except that same-owner records are skipped
silently. -/
def reconstruct_step (item_owner item_name user_lower_to_original : List (String × String))
    (cycle : List String) (ut : TransMap) (i : Nat) : TransMap :=
  let n := cycle.length
  let giver_item := cycle.getD i ""
  let receiver_item := cycle.getD ((i + 1) % n) ""
  let giver_user_lower := (item_owner.lookup giver_item).getD ""
  let receiver_user_lower := (item_owner.lookup receiver_item).getD ""
  let giver_user := (user_lower_to_original.lookup giver_user_lower).getD "Unknown"
  let receiver_user := (user_lower_to_original.lookup receiver_user_lower).getD "Unknown"
  if giver_user = receiver_user then ut
  else
    let item_given := (item_name.lookup giver_item).getD "Unknown"
    let item_received := (item_name.lookup receiver_item).getD "Unknown"
    addGivenReceived ut giver_user item_given item_received

/-- Embedding of `genetic_algorithm_max_players.reconstruct_exchanges`. -/
def reconstruct_exchanges (cycles : List (List String))
    (item_owner item_name user_lower_to_original : List (String × String)) : TransMap :=
  cycles.foldl
    (fun ut cycle =>
      (List.range cycle.length).foldl
        (reconstruct_step item_owner item_name user_lower_to_original cycle) ut)
    []

end GeneticMax

namespace TradeMaxPlayers

/-- One iteration of the inner loop of
`trade_maximizer_max_players.reconstruct_exchanges`: the owner of
`cycle[i]` gives that item and receives `cycle[i - 1]` (Python index −1
wraps to the last element), with no skip for same-owner records. -/
def reconstruct_step (item_owner item_name user_lower_to_original : List (String × String))
    (cycle : List String) (ut : TransMap) (i : Nat) : TransMap :=
  let n := cycle.length
  let user_item := cycle.getD i ""
  let user_lower := (item_owner.lookup user_item).getD ""
  let user := (user_lower_to_original.lookup user_lower).getD "Unknown"
  let previous_item := cycle.getD ((i + n - 1) % n) ""
  let item_given := (item_name.lookup user_item).getD "Unknown"
  let item_received := (item_name.lookup previous_item).getD "Unknown"
  addGivenReceived ut user item_given item_received

/-- Embedding of `trade_maximizer_max_players.reconstruct_exchanges`. -/
def reconstruct_exchanges (cycles : List (List String))
    (item_owner item_name user_lower_to_original : List (String × String)) : TransMap :=
  cycles.foldl
    (fun ut cycle =>
      (List.range cycle.length).foldl
        (reconstruct_step item_owner item_name user_lower_to_original cycle) ut)
    []

end TradeMaxPlayers

namespace TradeMaxWorking

/-- Vertex of the bipartite R/S graph: the item id together with its side,
`true` for the receiver copy `x_R` and `false` for the sender copy `x_S`
(the source encodes the side as a `_R` / `_S` suffix on the id). -/
abbrev RSNode := String × Bool

/-- One iteration of
`trade_maximizer_working.reconstruct_exchanges_from_matching`: only
receiver-side keys are processed, self-matches are dropped, and each real
pair credits the receiver's owner with (give item, receive wish) and the
sender's owner with the mirrored pair. -/
def matching_step (item_owner item_name user_lower_to_original : List (String × String))
    (st : TransMap × Nat) (pair : RSNode × RSNode) : TransMap × Nat :=
  let (node_u, node_v) := pair
  if node_u.2 then
    let receiver_item_id := node_u.1
    let sender_item_id := node_v.1
    if receiver_item_id = sender_item_id then st
    else
      let receiver_user_lower := (item_owner.lookup receiver_item_id).getD ""
      let sender_user_lower := (item_owner.lookup sender_item_id).getD ""
      let receiver_user := (user_lower_to_original.lookup receiver_user_lower).getD "Unknown"
      let sender_user := (user_lower_to_original.lookup sender_user_lower).getD "Unknown"
      let item_given := (item_name.lookup receiver_item_id).getD ""
      let item_received := (item_name.lookup sender_item_id).getD ""
      (addGivenReceived (addGivenReceived st.1 receiver_user item_given item_received)
          sender_user item_received item_given,
        st.2 + 1)
  else st

/-- Embedding of
`trade_maximizer_working.reconstruct_exchanges_from_matching`, returning
the grouped transactions and the `num_exchanges` count. -/
def reconstruct_exchanges_from_matching (matching : List (RSNode × RSNode))
    (item_owner item_name user_lower_to_original : List (String × String)) :
    TransMap × Nat :=
  matching.foldl (matching_step item_owner item_name user_lower_to_original) ([], 0)

end TradeMaxWorking

/-- ASCII model of Python's `str.lower`, applied characterwise. -/
def lowerChar (c : Char) : Char :=
  if 'A' ≤ c ∧ c ≤ 'Z' then Char.ofNat (c.toNat + 32) else c

/-- Lowercasing of identifiers (`user.lower()`, `item.lower()`). -/
def strLower (s : String) : String := ⟨s.data.map lowerChar⟩

/-- Offers of one user: `(offered item id, wishlist)` pairs in insertion
order, the shape of `users[u]["offers"]` in the instance file. -/
abbrev Offers := List (String × List String)

/-- The `users` table of an instance file. -/
abbrev Users := List (String × Offers)

/-- The `items` table of an instance file. -/
abbrev Items := List (String × ItemInfo)

/-- Python set insertion on a list model of a set. -/
def set_insert (s : List String) (x : String) : List String :=
  if x ∈ s then s else s ++ [x]

/-- Summary entry of one user, as built by the `summarize_exchanges`
functions (`items_offered`, `items_given`, `items_received`). -/
structure UserSummary where
  items_offered : List String
  items_given : List String
  items_received : List String
deriving DecidableEq

/-- Dictionary write `m[k] = v`: replace the entry when the key exists,
append it otherwise. -/
def dict_set {β : Type} (m : List (String × β)) (k : String) (v : β) :
    List (String × β) :=
  match m with
  | [] => [(k, v)]
  | (k', v') :: rest => if k' = k then (k, v) :: rest else (k', v') :: dict_set rest k v

/-- In-place mutation of the summary stored under an existing key. -/
def update_entry (m : List (String × UserSummary)) (k : String)
    (f : UserSummary → UserSummary) : List (String × UserSummary) :=
  m.map (fun p => if p.1 = k then (p.1, f p.2) else p)

/-- Node insertion of networkx (`add_edge` registers missing endpoints). -/
def addNodeOnce (ns : List String) (v : String) : List String :=
  if v ∈ ns then ns else ns ++ [v]

/-- Edge insertion of networkx `DiGraph.add_edge`: endpoints are added as
nodes and a repeated edge is not duplicated. -/
def addEdgeOnce (G : Digraph String) (a b : String) : Digraph String :=
  ⟨addNodeOnce (addNodeOnce G.nodes a) b,
    if (a, b) ∈ G.edges then G.edges else G.edges ++ [(a, b)]⟩

/-- Incoming-edge count of a vertex (networkx `in_degree`). -/
def in_degree (G : Digraph String) (v : String) : Nat :=
  (G.edges.filter (fun e => decide (e.2 = v))).length

namespace Greedy

/-- Exchange record produced by `find_possible_exchanges`. -/
structure Exchange where
  from_user : String
  to_user : String
  item_given : String
  item_received : String
deriving DecidableEq

/-- Embedding of `greedy_algorithm.build_ownership_map`: item id to
lowercased owner. -/
def build_ownership_map (items : Items) : List (String × String) :=
  items.map (fun p => (p.1, strLower p.2.owner))

/-- Embedding of `greedy_algorithm.build_graph` (called with an empty
`assigned_items` set): an edge from each offered item to each desired
item that exists and is not owned by the offering user. -/
def build_graph (users : Users) (items : Items) : Digraph String :=
  let ownership := build_ownership_map items
  users.foldl
    (fun G p =>
      p.2.foldl
        (fun G offer =>
          offer.2.foldl
            (fun G desired =>
              if (items.lookup desired).isSome ∧
                  (ownership.lookup desired).getD "" ≠ strLower p.1 then
                addEdgeOnce G offer.1 desired
              else G)
            G)
        G)
    ⟨[], []⟩

/-- Stable insertion into a list kept in descending key order, the model
of Python's stable `list.sort(key=lambda x: -len(x))`. -/
def insertDescBy (key : List String → Nat) (x : List String) :
    List (List String) → List (List String)
  | [] => [x]
  | y :: ys => if key y ≤ key x then x :: y :: ys else y :: insertDescBy key x ys

/-- Stable descending sort by cycle length. -/
def sort_cycles_desc (cycles : List (List String)) : List (List String) :=
  cycles.foldr (insertDescBy List.length) []

/-- The per-cycle validity check and record construction of the greedy
loop: `none` models `cycle_valid = False` (some hop joins two items of
the same owner), otherwise the `n` temporary exchange records. -/
def cycle_exchanges (ownership : List (String × String)) (cycle : List String) :
    Option (List Exchange) :=
  let n := cycle.length
  let from_user := fun i => (ownership.lookup (cycle.getD i "")).getD "unknown"
  let to_user := fun i => (ownership.lookup (cycle.getD ((i + 1) % n) "")).getD "unknown"
  if (List.range n).all (fun i => decide (from_user i ≠ to_user i)) then
    some ((List.range n).map (fun i =>
      ⟨from_user i, to_user i, cycle.getD i "", cycle.getD ((i + 1) % n) ""⟩))
  else none

/-- One iteration of the greedy packing loop over the sorted cycles: skip
a cycle touching an already assigned item, otherwise commit its records
and mark its items assigned. -/
def pack_step (ownership : List (String × String))
    (st : List Exchange × List String) (cycle : List String) :
    List Exchange × List String :=
  if cycle.any (fun item => decide (item ∈ st.2)) then st
  else
    match cycle_exchanges ownership cycle with
    | none => st
    | some tmp => (st.1 ++ tmp, st.2 ++ cycle)

/-- The greedy packing loop of `find_possible_exchanges` run on an
explicit cycle list, returning the exchanges and the assigned items. -/
def pack (ownership : List (String × String)) (cycles : List (List String)) :
    List Exchange × List String :=
  cycles.foldl (pack_step ownership) ([], [])

/-- Embedding of `greedy_algorithm.find_possible_exchanges`. -/
def find_possible_exchanges (users : Users) (items : Items)
    (max_cycle_length : Nat) : List Exchange :=
  let ownership := build_ownership_map items
  let G := build_graph users items
  let cycles := find_cycles G max_cycle_length
  (pack ownership (sort_cycles_desc cycles)).1

/-- One exchange record folded into the greedy summary: the giver's entry
gains the given and the received item, and the receiver's entry also
gains the received item. -/
def summarize_step (m : List (String × UserSummary)) (ex : Exchange) :
    List (String × UserSummary) :=
  let from_user := strLower ex.from_user
  let to_user := strLower ex.to_user
  let item_given := strLower ex.item_given
  let item_received := strLower ex.item_received
  let m1 :=
    if (m.lookup from_user).isSome then
      update_entry m from_user (fun s =>
        ⟨s.items_offered, set_insert s.items_given item_given,
          set_insert s.items_received item_received⟩)
    else m
  if (m1.lookup to_user).isSome then
    update_entry m1 to_user (fun s =>
      ⟨s.items_offered, s.items_given, set_insert s.items_received item_received⟩)
  else m1

/-- Embedding of `greedy_algorithm.summarize_exchanges` (the summary
dictionary it returns; sets are modelled as duplicate-free lists). -/
def summarize_exchanges (users : Users) (exchanges : List Exchange) :
    List (String × UserSummary) :=
  let init := users.foldl
    (fun m p =>
      dict_set m (strLower p.1)
        ⟨(p.2.map (fun o => strLower o.1)).foldl set_insert [], [], []⟩)
    []
  exchanges.foldl summarize_step init

/-- The participation metric of `greedy_algorithm.summarize_exchanges`
(lines 144–149): participating users over total users, 0.0 when there
are no users. -/
def participation_percent (user_summary : List (String × UserSummary)) : ℚ :=
  let total_users := user_summary.length
  let participating :=
    (user_summary.filter
      (fun p => !(p.2.items_given.isEmpty && p.2.items_received.isEmpty))).length
  if total_users = 0 then 0 else (participating : ℚ) / total_users * 100

/-- Embedding of `greedy_algorithm.calculate_effectiveness` (the overall
effectiveness metric): exchanged items over offered items, 0.0 when no
item is offered. -/
def calculate_effectiveness (user_summary : List (String × UserSummary)) : ℚ :=
  let total_offers := (user_summary.map (fun p => p.2.items_offered.length)).sum
  let total_exchanged := (user_summary.map (fun p => p.2.items_given.length)).sum
  if total_offers = 0 then 0 else (total_exchanged : ℚ) / total_offers * 100

end Greedy

namespace Tradegenie

/-- Embedding of `tradegenie.summarize_exchanges` (the summary it
returns): entries keyed by display names, extended from the grouped
transactions when the key exists. -/
def summarize_exchanges (users_lower : Users) (user_transactions : TransMap)
    (user_lower_to_original : List (String × String)) : List (String × UserSummary) :=
  let init := users_lower.foldl
    (fun m p =>
      dict_set m ((user_lower_to_original.lookup p.1).getD "")
        ⟨p.2.map (fun o => o.1), [], []⟩)
    []
  user_transactions.foldl
    (fun m t =>
      if (m.lookup t.1).isSome then
        update_entry m t.1 (fun s =>
          ⟨s.items_offered, s.items_given ++ t.2.1, s.items_received ++ t.2.2⟩)
      else m)
    init

/-- The participation metric of `tradegenie.summarize_exchanges` (lines
234–238): 0.0 when there are no users. -/
def participation_percent (user_summary : List (String × UserSummary)) : ℚ :=
  let total_users := user_summary.length
  let participating :=
    (user_summary.filter
      (fun p => !(p.2.items_given.isEmpty && p.2.items_received.isEmpty))).length
  if total_users = 0 then 0 else (participating : ℚ) / total_users * 100

/-- Embedding of `tradegenie.calculate_effectiveness`: 0.0 when no item
is offered. -/
def calculate_effectiveness (user_summary : List (String × UserSummary)) : ℚ :=
  let total_offers := (user_summary.map (fun p => p.2.items_offered.length)).sum
  let total_exchanged := (user_summary.map (fun p => p.2.items_given.length)).sum
  if total_offers = 0 then 0 else (total_exchanged : ℚ) / total_offers * 100

end Tradegenie

namespace Tradegenie

/-- Embedding of `tradegenie.standardize_usernames`: lowercased user name
to original spelling (a Python dict comprehension, so a repeated key is
overwritten). -/
def standardize_usernames (users : Users) : List (String × String) :=
  users.foldl (fun m p => dict_set m (strLower p.1) p.1) []

/-- Embedding of `tradegenie.create_item_mappings`: item id to lowercased
owner (or the sentinel `unknown` when the owner is not a known user) and
item id to display name. -/
def create_item_mappings (items : Items)
    (user_lower_to_original : List (String × String)) :
    List (String × String) × List (String × String) :=
  items.foldl
    (fun m p =>
      let owner_lower := strLower p.2.owner
      if (user_lower_to_original.lookup owner_lower).isSome then
        (dict_set m.1 p.1 owner_lower, dict_set m.2 p.1 p.2.name)
      else
        (dict_set m.1 p.1 "unknown", dict_set m.2 p.1 p.2.name))
    ([], [])

/-- Embedding of `tradegenie.clean_wishlists`: drop from every wishlist
the ids that are not keys of the item-owner table. -/
def clean_wishlists (users_lower : Users) (item_owner : List (String × String)) :
    Users :=
  users_lower.map (fun p =>
    (p.1, p.2.map (fun o =>
      (o.1, o.2.filter (fun item_id => (item_owner.lookup item_id).isSome)))))

/-- Embedding of `tradegenie.build_exchange_graph`: one node per item of
the item table, and an edge from an offered item to each wanted item
whose owner is known and differs from the offering user. -/
def build_exchange_graph (users_lower : Users) (items : Items)
    (item_owner : List (String × String)) : Digraph String :=
  let G0 : Digraph String := ⟨items.foldl (fun ns p => addNodeOnce ns p.1) [], []⟩
  users_lower.foldl
    (fun G p =>
      p.2.foldl
        (fun G offer =>
          offer.2.foldl
            (fun G wanted_item_id =>
              match item_owner.lookup wanted_item_id with
              | some desired_item_owner =>
                  if desired_item_owner ≠ p.1 then addEdgeOnce G offer.1 wanted_item_id
                  else G
              | none => G)
            G)
        G)
    G0

/-- Embedding of `tradegenie.weed_out_unwanted_items`: remove every
vertex with no incoming edge from the graph and delete those ids from the
item-owner and item-name tables. -/
def weed_out_unwanted_items (G : Digraph String)
    (item_owner item_name : List (String × String)) :
    Digraph String × List (String × String) × List (String × String) :=
  let items_to_remove := G.nodes.filter (fun v => decide (in_degree G v = 0))
  (⟨G.nodes.filter (fun v => decide (v ∉ items_to_remove)),
      G.edges.filter (fun e => decide (e.1 ∉ items_to_remove ∧ e.2 ∉ items_to_remove))⟩,
    item_owner.filter (fun p => decide (p.1 ∉ items_to_remove)),
    item_name.filter (fun p => decide (p.1 ∉ items_to_remove)))

/-- Cycle indices selected by an ILP assignment (`varValue == 1`). -/
def selected_indices (cycles : List (List String)) (x : List Bool) : List Nat :=
  (List.range cycles.length).filter (fun i => x.getD i false)

/-- The item-disjointness constraints of the cycle ILP, as posted in
`optimize_trades`: for every item occurring in some cycle, the selected
cycles containing it number at most one. -/
def LPItemDisjoint (cycles : List (List String)) (x : List Bool) : Prop :=
  ∀ item ∈ cycles.flatten,
    ((List.range cycles.length).filter
      (fun i => x.getD i false && decide (item ∈ cycles.getD i []))).length ≤ 1

/-- Embedding of the result handling of `tradegenie.optimize_trades`,
parameterized by the external CBC outcome: `optimal = true` with
assignment `x` yields the selected cycles, a non-optimal status yields an
empty selection plus one warning. -/
def optimize_trades (cycles : List (List String)) (optimal : Bool) (x : List Bool)
    (num_warnings : Nat) : List (List String) × Nat :=
  if optimal then ((selected_indices cycles x).map (fun i => cycles.getD i []), num_warnings)
  else ([], num_warnings + 1)

end Tradegenie

instance (cycles : List (List String)) (x : List Bool) :
    Decidable (Tradegenie.LPItemDisjoint cycles x) := by
  unfold Tradegenie.LPItemDisjoint; infer_instance

namespace TradeMaxPlayers

/-- Embedding of the cycle filter and result handling of
`trade_maximizer_max_players.find_exchange_cycles_ilp`: cycles of length
2.. `max_cycle_length` are enumerated; with no cycle the function returns
early, and a non-optimal ILP status yields an empty selection plus one
warning. -/
def find_exchange_cycles_ilp (G : Digraph String) (max_cycle_length : Nat)
    (optimal : Bool) (x : List Bool) (num_warnings : Nat) :
    List (List String) × Nat :=
  let cycles := (simpleCycles G).filter
    (fun c => decide (2 ≤ c.length ∧ c.length ≤ max_cycle_length))
  if cycles.isEmpty then ([], num_warnings)
  else if optimal then
    ((Tradegenie.selected_indices cycles x).map (fun i => cycles.getD i []), num_warnings)
  else ([], num_warnings + 1)

end TradeMaxPlayers

namespace TradeMaxWorking

/-- Embedding of
`trade_maximizer_working.find_minimum_cost_perfect_matching`,
parameterized by the externally computed facts: the bipartiteness check
and the matcher outcome (`none` models a raised exception).  A
non-bipartite graph or a failed matcher yields an empty matching plus one
warning. -/
def find_minimum_cost_perfect_matching (is_bipartite : Bool)
    (matcher_result : Option (List (RSNode × RSNode))) (num_warnings : Nat) :
    List (RSNode × RSNode) × Nat :=
  if !is_bipartite then ([], num_warnings + 1)
  else
    match matcher_result with
    | none => ([], num_warnings + 1)
    | some matching => (matching, num_warnings)

end TradeMaxWorking

namespace GeneticMax

/-- Embedding of `genetic_algorithm_max_players.clean_wishlists`
(identical to the trade-genie cleaner). -/
def clean_wishlists (users_lower : Users) (item_owner : List (String × String)) :
    Users :=
  users_lower.map (fun p =>
    (p.1, p.2.map (fun o =>
      (o.1, o.2.filter (fun item_id => (item_owner.lookup item_id).isSome)))))

/-- Embedding of `genetic_algorithm_max_players.fitness_function`: the
number of distinct owners of items appearing in the chromosome's cycles. -/
def fitness_function (chromosome : List (List String))
    (item_owner : List (String × String)) : Nat :=
  (chromosome.flatten.map (fun item_id => (item_owner.lookup item_id).getD "")).dedup.length

/-- Stable insertion into a descending Nat list. -/
def insertDescNat (x : Nat) : List Nat → List Nat
  | [] => [x]
  | y :: ys => if y ≤ x then x :: y :: ys else y :: insertDescNat x ys

/-- Model of Python's in-place `fitness_values.sort(reverse=True)`. -/
def sortDescNat (l : List Nat) : List Nat :=
  l.foldr insertDescNat []

/-- The roulette weights computed inside `selection` when the total
fitness is nonzero: `[f / total_fitness for f in fitness_values]`. -/
def selection_probs (fitness_values : List Nat) : List ℚ :=
  let total_fitness := fitness_values.sum
  fitness_values.map (fun f => (f : ℚ) / total_fitness)

/-- The roulette weights actually used by one generation of
`genetic_algorithm`: the fitness list is sorted descending in place
before `selection(population, fitness_values, num_parents)` is called, so
`selection` receives the sorted list while `population` stays in its
original order. -/
def genetic_selection_probs (population : List (List (List String)))
    (item_owner : List (String × String)) : List ℚ :=
  let fitness_values := population.map (fun c => fitness_function c item_owner)
  selection_probs (sortDescNat fitness_values)

/-- Number of parents drawn per generation:
`int(population_size * crossover_rate)`. -/
def num_parents (population_size : Nat) (crossover_rate : ℚ) : Nat :=
  (Int.floor ((population_size : ℚ) * crossover_rate)).toNat

/-- One append step of `crossover`: a cycle is taken when none of its
items conflicts with the items already used. -/
def crossover_step (st : List (List String) × List String) (cycle : List String) :
    List (List String) × List String :=
  if cycle.any (fun item => decide (item ∈ st.2)) then st
  else (st.1 ++ [cycle], st.2 ++ cycle)

/-- Embedding of `genetic_algorithm_max_players.crossover`: greedily merge
the parents' cycles, skipping any cycle that conflicts with the child. -/
def crossover (parent1 parent2 : List (List String)) : List (List String) :=
  (parent2.foldl crossover_step (parent1.foldl crossover_step ([], []))).1

end GeneticMax

namespace WantsProcessing

/-- Candidate id for the `k`-th copy of a duplicated item id. -/
def mkCopyId (item_id : String) (k : Nat) : String :=
  item_id ++ "-COPY" ++ Nat.repr k

/-- The `while new_item_id in item_id_to_name` loop of the parser: starting
from candidate number `k`, return the first candidate not in the table
(with enough fuel to scan past every key of the finite table). -/
def freshCopyNum (table : Items) (item_id : String) : Nat → Nat → Nat
  | k, 0 => k
  | k, fuel + 1 =>
      if (table.lookup (mkCopyId item_id k)).isSome then
        freshCopyNum table item_id (k + 1) fuel
      else k

/-- Copy number chosen by the parser for a duplicated id (the loop starts
at `copy_id = 1`). -/
def copyNum (table : Items) (item_id : String) : Nat :=
  freshCopyNum table item_id 1 (table.length + 1)

/-- Embedding of the official-names insertion (wants_processing lines
85–96): a duplicate id — regardless of its owner — is stored under the
first free `-COPY<k>` id. -/
def official_names_insert (table : Items) (item_id item_name owner : String) : Items :=
  if (table.lookup item_id).isSome then
    table ++ [(mkCopyId item_id (copyNum table item_id), ⟨item_name, owner⟩)]
  else table ++ [(item_id, ⟨item_name, owner⟩)]

/-- Embedding of the offer-line insertion (wants_processing lines
127–142): an unknown id is registered to the current user, a duplicate id
held by a different owner is copy-suffixed, and a duplicate id held by
the same owner leaves the table unchanged.  The second component is the
item id under which the offer is then stored. -/
def offer_insert (table : Items) (item_id current_user : String) : Items × String :=
  match table.lookup item_id with
  | none => (table ++ [(item_id, ⟨item_id, current_user⟩)], item_id)
  | some info =>
      if info.owner ≠ current_user then
        let new_item_id := mkCopyId item_id (copyNum table item_id)
        (table ++ [(new_item_id, ⟨new_item_id, current_user⟩)], new_item_id)
      else (table, item_id)

end WantsProcessing

/-- The provenance of a want-graph edge: some user's offer lists the
target item, the target item has a known owner, and that owner is not
the offering user. -/
def EdgeOk (users_lower : Users) (item_owner : List (String × String))
    (e : String × String) : Prop :=
  ∃ u os wl ow, (u, os) ∈ users_lower ∧ (e.1, wl) ∈ os ∧ e.2 ∈ wl ∧
    item_owner.lookup e.2 = some ow ∧ ow ≠ u

/-- Two-user sample instance of the repository's test suite: Alice offers
item1 wanting item2, Bob offers item2 wanting item1. -/
def sampleUsers : Users :=
  [("Alice", [("item1", ["item2"])]), ("Bob", [("item2", ["item1"])])]

/-- Item table of the two-user sample instance. -/
def sampleItems : Items :=
  [("item1", ⟨"Chess Set", "Alice"⟩), ("item2", ⟨"Monopoly Game", "Bob"⟩)]

/-- A three-item cycle with three distinct owners, for exercising the
reconstructors. -/
def cycle3 : List String := ["i1", "i2", "i3"]

/-- Owner table of the three-item cycle. -/
def owner3 : List (String × String) := [("i1", "a"), ("i2", "b"), ("i3", "c")]

/-- Name table of the three-item cycle. -/
def name3 : List (String × String) := [("i1", "n1"), ("i2", "n2"), ("i3", "n3")]

/-- Display-name table of the three owners. -/
def orig3 : List (String × String) := [("a", "A"), ("b", "B"), ("c", "C")]

/-- One-vertex graph with a self-loop. -/
def selfLoopG : Digraph Nat := ⟨[0], [(0, 0)]⟩

/-- Two-vertex graph with a single 2-cycle. -/
def twoCycleG : Digraph Nat := ⟨[0, 1], [(0, 1), (1, 0)]⟩

/-- String-labelled two-item want-graph with a single 2-cycle. -/
def twoCycleSG : Digraph String :=
  ⟨["item1", "item2"], [("item1", "item2"), ("item2", "item1")]⟩

/-- Item table used by the wishlist-cleaning counterexample: alice owns
item1, bob owns item2. -/
def cwUsers : Users := [("alice", [("item1", ["item2", "item1"])])]

/-- Owner table of the cleaning counterexample. -/
def cwOwner : List (String × String) := [("item1", "alice"), ("item2", "bob")]

/-- Item table of the cleaning counterexample. -/
def cwItems : Items :=
  [("item1", ⟨"item1", "alice"⟩), ("item2", ⟨"item2", "bob"⟩)]

/-- One-entry parser item table holding an id about to be re-inserted. -/
def dupTable : Items := [("2024-GAME", ⟨"Gra", "alice"⟩)]

/-- Parser item table already holding the first copy of an id. -/
def dupTable2 : Items := [("X", ⟨"n", "alice"⟩), ("X-COPY1", ⟨"n", "bob"⟩)]

/-- Chromosome whose two items share one owner (fitness 1). -/
def chromA : List (List String) := [["x", "y"]]

/-- Chromosome whose two items have two owners (fitness 2). -/
def chromB : List (List String) := [["x", "z"]]

/-- Owner table for the fitness examples. -/
def ownerF : List (String × String) := [("x", "u1"), ("y", "u1"), ("z", "u2")]

/-- Soundness of the depth-first search: under the invariants that the
current path is duplicate-free, forms an edge chain when read from
`start`, and starts at `start`, everything it emits is a simple cycle. -/
theorem dfsCycles_sound (edges : List (α × α)) (allowed : List α) (start : α) :
    ∀ fuel cur path, (cur :: path).Nodup →
      List.Chain' (fun a b => (a, b) ∈ edges) ((cur :: path).reverse) →
      ((cur :: path).reverse).head? = some start →
      ∀ c ∈ dfsCycles edges allowed start fuel cur path, IsCycleOf edges c := by
  intro fuel
  induction fuel with
  | zero => intro cur path _ _ _ c hc; simp [dfsCycles] at hc
  | succ n ih =>
    intro cur path hnodup hchain hhead c hc
    rw [dfsCycles] at hc
    rcases List.mem_append.mp hc with hclose | hext
    · by_cases hedge : (cur, start) ∈ edges
      · simp only [if_pos hedge, List.mem_singleton] at hclose
        subst hclose
        refine ⟨by simp, List.nodup_reverse.mpr hnodup, hchain, ?_⟩
        intro x hx h hh
        rw [List.getLast?_reverse] at hx
        simp only [List.head?_cons, Option.mem_def, Option.some.injEq] at hx
        rw [hhead] at hh
        simp only [Option.mem_def, Option.some.injEq] at hh
        subst hx; subst hh
        exact hedge
      · simp [if_neg hedge] at hclose
    · rw [List.mem_flatten] at hext
      obtain ⟨l, hl, hcl⟩ := hext
      rw [List.mem_map] at hl
      obtain ⟨v, hv, hvl⟩ := hl
      rw [List.mem_filter] at hv
      obtain ⟨-, hv2⟩ := hv
      rw [Bool.and_eq_true, decide_eq_true_eq, decide_eq_true_eq] at hv2
      obtain ⟨hvnot, hvedge⟩ := hv2
      subst hvl
      refine ih v (cur :: path) (List.nodup_cons.mpr ⟨hvnot, hnodup⟩) ?_ ?_ c hcl
      · have : (v :: cur :: path).reverse = (cur :: path).reverse ++ [v] := by
          simp
        rw [this, List.chain'_append]
        refine ⟨hchain, List.chain'_singleton v, ?_⟩
        intro x hx y hy
        rw [List.getLast?_reverse] at hx
        simp only [List.head?_cons, Option.mem_def, Option.some.injEq] at hx
        simp only [List.head?_cons, Option.mem_def, Option.some.injEq] at hy
        subst hx; subst hy
        exact hvedge
      · have : (v :: cur :: path).reverse = (cur :: path).reverse ++ [v] := by
          simp
        rw [this]
        cases hrev : (cur :: path).reverse with
        | nil => exact absurd hrev (by simp)
        | cons a t =>
          rw [hrev] at hhead
          simpa using hhead

/-- Everything produced by the reference enumeration is a simple cycle. -/
theorem simpleCycles_sound (G : Digraph α) :
    ∀ c ∈ simpleCycles G, IsCycleOf G.edges c := by
  suffices h : ∀ ns : List α, ∀ c ∈ simpleCyclesAux G.edges ns, IsCycleOf G.edges c by
    intro c hc; exact h G.nodes c hc
  intro ns
  induction ns with
  | nil => intro c hc; simp [simpleCyclesAux] at hc
  | cons v rest ih =>
    intro c hc
    rw [simpleCyclesAux, List.mem_append] at hc
    rcases hc with hc | hc
    · exact dfsCycles_sound G.edges (v :: rest) v _ v []
        (by simp) (by simp) (by simp) c hc
    · exact ih c hc

/-- Appending one give and one receive to a user's entry keeps the
transaction dictionary balanced. -/
theorem addGivenReceived_balanced (ut : TransMap) (user given received : String)
    (h : Balanced ut) : Balanced (addGivenReceived ut user given received) := by
  induction ut with
  | nil =>
    intro e he
    simp only [addGivenReceived, List.mem_singleton] at he
    subst he; rfl
  | cons hd tl ih =>
    obtain ⟨u, gr⟩ := hd
    intro e he
    rw [addGivenReceived] at he
    by_cases hu : u = user
    · rw [if_pos hu] at he
      rcases List.mem_cons.mp he with h1 | h2
      · subst h1
        have := h (u, gr) (List.mem_cons_self _ _)
        simpa using this
      · exact h e (List.mem_cons_of_mem _ h2)
    · rw [if_neg hu] at he
      rcases List.mem_cons.mp he with h1 | h2
      · subst h1; exact h (u, gr) (List.mem_cons_self _ _)
      · exact ih (fun e' he' => h e' (List.mem_cons_of_mem _ he')) e h2

/-- A fold whose every step keeps the dictionary balanced keeps it
balanced. -/
theorem foldl_balanced {β : Type} (f : TransMap → β → TransMap)
    (hf : ∀ ut b, Balanced ut → Balanced (f ut b)) (l : List β) (ut : TransMap)
    (h : Balanced ut) : Balanced (l.foldl f ut) := by
  induction l generalizing ut with
  | nil => exact h
  | cons x xs ih => exact ih _ (hf _ _ h)

/-- The trade-genie reconstructor always produces a balanced transaction
dictionary: each emitted record adds one given and one received item to
the same user's entry, and skipped records add neither. -/
theorem tradegenie_reconstruct_balanced (selected_cycles : List (List String))
    (item_owner item_name user_lower_to_original : List (String × String)) :
    Balanced (Tradegenie.reconstruct_exchanges selected_cycles item_owner item_name
      user_lower_to_original) := by
  refine foldl_balanced _ ?_ _ _ (by intro e he; simp at he)
  intro ut cycle h
  refine foldl_balanced _ ?_ _ _ h
  intro ut' i h'
  unfold Tradegenie.reconstruct_step
  dsimp only
  split
  · exact h'
  · exact addGivenReceived_balanced _ _ _ _ h'

/-- The genetic reconstructor always produces a balanced transaction
dictionary. -/
theorem genetic_reconstruct_balanced (cycles : List (List String))
    (item_owner item_name user_lower_to_original : List (String × String)) :
    Balanced (GeneticMax.reconstruct_exchanges cycles item_owner item_name
      user_lower_to_original) := by
  refine foldl_balanced _ ?_ _ _ (by intro e he; simp at he)
  intro ut cycle h
  refine foldl_balanced _ ?_ _ _ h
  intro ut' i h'
  unfold GeneticMax.reconstruct_step
  dsimp only
  split
  · exact h'
  · exact addGivenReceived_balanced _ _ _ _ h'

/-- The player-max reconstructor always produces a balanced transaction
dictionary. -/
theorem trade_max_players_reconstruct_balanced (cycles : List (List String))
    (item_owner item_name user_lower_to_original : List (String × String)) :
    Balanced (TradeMaxPlayers.reconstruct_exchanges cycles item_owner item_name
      user_lower_to_original) := by
  refine foldl_balanced _ ?_ _ _ (by intro e he; simp at he)
  intro ut cycle h
  refine foldl_balanced _ ?_ _ _ h
  intro ut' i h'
  exact addGivenReceived_balanced _ _ _ _ h'

/-- The matching reconstructor always produces a balanced transaction
dictionary: every processed pair credits each of its two users with one
given and one received item. -/
theorem matching_reconstruct_balanced (matching : List (TradeMaxWorking.RSNode × TradeMaxWorking.RSNode))
    (item_owner item_name user_lower_to_original : List (String × String)) :
    Balanced (TradeMaxWorking.reconstruct_exchanges_from_matching matching item_owner
      item_name user_lower_to_original).1 := by
  unfold TradeMaxWorking.reconstruct_exchanges_from_matching
  have hgen : ∀ (l : List (TradeMaxWorking.RSNode × TradeMaxWorking.RSNode))
      (st : TransMap × Nat), Balanced st.1 →
      Balanced (l.foldl
        (TradeMaxWorking.matching_step item_owner item_name user_lower_to_original) st).1 := by
    intro l
    induction l with
    | nil => intro st h; exact h
    | cons p rest ih =>
      intro st h
      refine ih _ ?_
      unfold TradeMaxWorking.matching_step
      dsimp only
      split
      · split
        · exact h
        · exact addGivenReceived_balanced _ _ _ _ (addGivenReceived_balanced _ _ _ _ h)
      · exact h
  exact hgen matching ([], 0) (by intro e he; simp at he)

/-- C10: participation percent is 0.0 when there are no participants and
overall effectiveness is 0.0 when no item is offered, in both the greedy
and the trade-genie reporter; the guarded division is never reached on
these inputs, so neither computation divides by zero. -/
theorem claim_C10_reporter_zero_guards (m : List (String × UserSummary)) :
    (m.length = 0 → Greedy.participation_percent m = 0)
  ∧ (m.length = 0 → Tradegenie.participation_percent m = 0)
  ∧ ((m.map (fun p => p.2.items_offered.length)).sum = 0 →
      Greedy.calculate_effectiveness m = 0)
  ∧ ((m.map (fun p => p.2.items_offered.length)).sum = 0 →
      Tradegenie.calculate_effectiveness m = 0) := by
  refine ⟨?_, ?_, ?_, ?_⟩ <;> intro h <;>
    simp [Greedy.participation_percent, Tradegenie.participation_percent,
      Greedy.calculate_effectiveness, Tradegenie.calculate_effectiveness, h]

/-- Witness for C10 at the empty summary. -/
theorem claim_C10_witness :
    Greedy.participation_percent [] = 0 ∧ Tradegenie.participation_percent [] = 0 ∧
    Greedy.calculate_effectiveness [] = 0 ∧ Tradegenie.calculate_effectiveness [] = 0 :=
  ⟨(claim_C10_reporter_zero_guards []).1 rfl,
   (claim_C10_reporter_zero_guards []).2.1 rfl,
   (claim_C10_reporter_zero_guards []).2.2.1 rfl,
   (claim_C10_reporter_zero_guards []).2.2.2 rfl⟩

/-- C8: a non-optimal ILP status in either cycle selector, and a
non-bipartite graph or a raising matcher in the matching solver, all
yield an empty selection together with one recorded warning; the
functions return normally instead of aborting. -/
theorem claim_C8_solver_error_guards (cycles : List (List String)) (x : List Bool)
    (w : Nat) (G : Digraph String) (L : Nat)
    (r : Option (List (TradeMaxWorking.RSNode × TradeMaxWorking.RSNode))) :
    Tradegenie.optimize_trades cycles false x w = ([], w + 1)
  ∧ ((simpleCycles G).filter (fun c => decide (2 ≤ c.length ∧ c.length ≤ L)) ≠ [] →
      TradeMaxPlayers.find_exchange_cycles_ilp G L false x w = ([], w + 1))
  ∧ TradeMaxWorking.find_minimum_cost_perfect_matching false r w = ([], w + 1)
  ∧ TradeMaxWorking.find_minimum_cost_perfect_matching true none w = ([], w + 1) := by
  refine ⟨rfl, ?_, rfl, rfl⟩
  intro h
  unfold TradeMaxPlayers.find_exchange_cycles_ilp
  dsimp only
  cases hl : (simpleCycles G).filter (fun c => decide (2 ≤ c.length ∧ c.length ≤ L)) with
  | nil => exact absurd hl h
  | cons a t => rfl

/-- Witness for C8 on the two-item want-graph. -/
theorem claim_C8_witness :
    Tradegenie.optimize_trades [["item1", "item2"]] false [true] 0 = ([], 1)
  ∧ TradeMaxPlayers.find_exchange_cycles_ilp twoCycleSG 6 false [true] 0 = ([], 1)
  ∧ TradeMaxWorking.find_minimum_cost_perfect_matching false none 0 = ([], 1)
  ∧ TradeMaxWorking.find_minimum_cost_perfect_matching true none 0 = ([], 1) :=
  ⟨(claim_C8_solver_error_guards [["item1", "item2"]] [true] 0 twoCycleSG 6 none).1,
   (claim_C8_solver_error_guards [["item1", "item2"]] [true] 0 twoCycleSG 6 none).2.1
     (by decide),
   (claim_C8_solver_error_guards [["item1", "item2"]] [true] 0 twoCycleSG 6 none).2.2.1,
   (claim_C8_solver_error_guards [["item1", "item2"]] [true] 0 twoCycleSG 6 none).2.2.2⟩

/-- C4 (amended): the greedy and trade-genie enumerators return exactly
the enumerated simple cycles of length between 2 and the bound, while the
genetic enumerator returns exactly those of length at most the bound —
including length-1 self-loop cycles when the graph has self-loops; every
enumerated cycle is a simple directed cycle. -/
theorem claim_C4_amended (G : Digraph α) (L : Nat) (c : List α) :
    (c ∈ Tradegenie.find_cycles G L ↔ c ∈ simpleCycles G ∧ 2 ≤ c.length ∧ c.length ≤ L)
  ∧ (c ∈ Greedy.find_cycles G L ↔ c ∈ simpleCycles G ∧ 2 ≤ c.length ∧ c.length ≤ L)
  ∧ (c ∈ GeneticMax.find_all_cycles G L ↔ c ∈ simpleCycles G ∧ c.length ≤ L)
  ∧ (c ∈ simpleCycles G → IsCycleOf G.edges c ∧ 1 ≤ c.length) := by
  refine ⟨?_, ?_, ?_, ?_⟩
  · unfold Tradegenie.find_cycles
    rw [List.mem_filter]
    simp [and_assoc]
  · unfold Greedy.find_cycles
    rw [List.mem_filter]
    simp [and_assoc]
  · unfold GeneticMax.find_all_cycles
    rw [List.mem_filter]
    simp
  · intro h
    have hs := simpleCycles_sound G c h
    refine ⟨hs, ?_⟩
    obtain ⟨hne, -, -, -⟩ := hs
    exact List.length_pos.mpr hne

/-- Witness for C4 on the two-vertex 2-cycle graph. -/
theorem claim_C4_witness :
    IsCycleOf twoCycleG.edges [0, 1] ∧ 1 ≤ ([0, 1] : List Nat).length :=
  (claim_C4_amended twoCycleG 2 [0, 1]).2.2.2 (by decide)

/-- C4 counterexample: on a graph with a self-loop, the genetic
enumerator returns the length-1 cycle, contradicting the claimed lower
bound of 2. -/
theorem claim_C4_counterexample :
    [0] ∈ GeneticMax.find_all_cycles selfLoopG 6 ∧ ¬ 2 ≤ ([0] : List Nat).length := by
  decide

/-- C1: on the two-user sample instance of the repository's own test
suite, the greedy pipeline produces the expected two exchange records,
yet `summarize_exchanges` reports alice as giving 1 item but receiving 2
— the summary is not balanced, because the receiver-side update also
adds the record's received item to the other user's received set. -/
theorem claim_C1_greedy_summary_unbalanced :
    Greedy.find_possible_exchanges sampleUsers sampleItems 6 =
      [⟨"alice", "bob", "item1", "item2"⟩, ⟨"bob", "alice", "item2", "item1"⟩]
  ∧ ((Greedy.summarize_exchanges sampleUsers
        (Greedy.find_possible_exchanges sampleUsers sampleItems 6)).lookup "alice").map
      (fun s => (s.items_given.length, s.items_received.length)) = some (1, 2)
  ∧ (1 : Nat) ≠ 2 := by
  decide

/-- C2: on a single selected 3-cycle with three distinct owners, the
player-max reconstructor hands the owner of `cᵢ` the previous item
`c_{i-1}` (A gives n1 and receives n3), while the genetic reconstructor
implements the specified interpretation (A gives n1 and receives n2). -/
theorem claim_C2_player_max_receives_previous :
    TradeMaxPlayers.reconstruct_exchanges [cycle3] owner3 name3 orig3 =
      [("A", (["n1"], ["n3"])), ("B", (["n2"], ["n1"])), ("C", (["n3"], ["n2"]))]
  ∧ GeneticMax.reconstruct_exchanges [cycle3] owner3 name3 orig3 =
      [("A", (["n1"], ["n2"])), ("B", (["n2"], ["n3"])), ("C", (["n3"], ["n1"]))]
  ∧ ("n3" : String) ≠ "n2" := by
  decide

/-- C7: the generation loop sorts the fitness list in place before
passing it to `selection`, so the roulette weight attached to each
chromosome is the fitness at its rank, not its own fitness: with
fitnesses [1, 2] the first chromosome is drawn with probability 2/3
instead of 1/3. -/
theorem claim_C7_roulette_weights_misaligned :
    GeneticMax.genetic_selection_probs [chromA, chromB] ownerF = [2/3, 1/3]
  ∧ GeneticMax.selection_probs
      ([chromA, chromB].map (fun c => GeneticMax.fitness_function c ownerF)) = [1/3, 2/3]
  ∧ ([2/3, 1/3] : List ℚ) ≠ [1/3, 2/3] := by
  have hmap : [chromA, chromB].map (fun c => GeneticMax.fitness_function c ownerF) = [1, 2] := by
    decide
  have hsort : GeneticMax.sortDescNat [1, 2] = [2, 1] := by decide
  refine ⟨?_, ?_, ?_⟩
  · unfold GeneticMax.genetic_selection_probs
    dsimp only
    rw [hmap, hsort]
    unfold GeneticMax.selection_probs
    dsimp only
    norm_num [List.map_cons, List.map_nil, List.sum_cons, List.sum_nil]
  · rw [hmap]
    unfold GeneticMax.selection_probs
    dsimp only
    norm_num [List.map_cons, List.map_nil, List.sum_cons, List.sum_nil]
  · intro h
    rw [List.cons.injEq] at h
    norm_num at h

/-- An edge of `addEdgeOnce G a b` is an edge of `G` or the pair `(a, b)`. -/
theorem mem_addEdgeOnce_edges {G : Digraph String} {a b : String} {e : String × String} :
    e ∈ (addEdgeOnce G a b).edges → e ∈ G.edges ∨ e = (a, b) := by
  unfold addEdgeOnce
  dsimp only
  split
  · exact Or.inl
  · intro h
    rcases List.mem_append.mp h with h | h
    · exact Or.inl h
    · simp only [List.mem_singleton] at h
      exact Or.inr h

/-- Folding graph-building steps preserves an edge invariant that each
step preserves. -/
theorem foldl_graph_edges_inv {β : Type} (P : String × String → Prop) (l : List β)
    (step : Digraph String → β → Digraph String)
    (hstep : ∀ G b, b ∈ l → (∀ e ∈ G.edges, P e) → ∀ e ∈ (step G b).edges, P e) :
    ∀ G, (∀ e ∈ G.edges, P e) → ∀ e ∈ (l.foldl step G).edges, P e := by
  induction l with
  | nil => intro G h e he; exact h e he
  | cons b bs ih =>
    intro G h e he
    exact ih (fun G' b' hb' hG' => hstep G' b' (List.mem_cons_of_mem _ hb') hG')
      (step G b) (hstep G b (List.mem_cons_self _ _) h) e he

/-- C5 (amended): after wishlist cleaning every remaining wishlist id is
a key of the item-owner table; self-owned ids are not removed by the
cleaner — the exclusion of self-owned wants happens only at graph
construction, where every created edge points at an item whose known
owner differs from the offering user. -/
theorem claim_C5_amended (users_lower : Users) (item_owner : List (String × String))
    (items : Items) :
    (∀ p ∈ Tradegenie.clean_wishlists users_lower item_owner, ∀ o ∈ p.2,
        ∀ item_id ∈ o.2, (item_owner.lookup item_id).isSome = true)
  ∧ (∀ e ∈ (Tradegenie.build_exchange_graph users_lower items item_owner).edges,
        EdgeOk users_lower item_owner e) := by
  constructor
  · intro p hp o ho item_id hx
    unfold Tradegenie.clean_wishlists at hp
    rw [List.mem_map] at hp
    obtain ⟨q, hq, rfl⟩ := hp
    rw [List.mem_map] at ho
    obtain ⟨r, hr, rfl⟩ := ho
    rw [List.mem_filter] at hx
    exact hx.2
  · intro e he
    unfold Tradegenie.build_exchange_graph at he
    dsimp only at he
    refine foldl_graph_edges_inv (EdgeOk users_lower item_owner) users_lower _ ?_ _ ?_ e he
    · intro G p hp hG
      refine foldl_graph_edges_inv _ p.2 _ ?_ G hG
      intro G' offer hoffer hG'
      refine foldl_graph_edges_inv _ offer.2 _ ?_ G' hG'
      intro G'' wanted hwanted hG'' e' he'
      rcases hlk : item_owner.lookup wanted with - | ow
      · rw [hlk] at he'
        exact hG'' e' he'
      · rw [hlk] at he'
        dsimp only at he'
        by_cases how : ow ≠ p.1
        · rw [if_pos how] at he'
          rcases mem_addEdgeOnce_edges he' with hin | rfl
          · exact hG'' e' hin
          · exact ⟨p.1, p.2, offer.2, ow, hp, hoffer, hwanted, hlk, how⟩
        · rw [if_neg how] at he'
          exact hG'' e' he'
    · intro e' he'
      simp at he'

/-- Witness for C5 on a concrete instance whose wishlist mentions a
known foreign item. -/
theorem claim_C5_witness :
    (cwOwner.lookup "item2").isSome = true ∧ EdgeOk cwUsers cwOwner ("item1", "item2") :=
  ⟨(claim_C5_amended cwUsers cwOwner cwItems).1 ("alice", [("item1", ["item2", "item1"])])
      (by decide) ("item1", ["item2", "item1"]) (by decide) "item2" (by decide),
   (claim_C5_amended cwUsers cwOwner cwItems).2 ("item1", "item2") (by decide)⟩

/-- C5 counterexample: cleaning keeps `item1` on alice's wishlist even
though alice herself owns `item1`, so a wishlist id may still refer to an
item owned by the publishing participant after normalization. -/
theorem claim_C5_counterexample :
    Tradegenie.clean_wishlists cwUsers cwOwner =
      [("alice", [("item1", ["item2", "item1"])])]
  ∧ cwOwner.lookup "item1" = some "alice" := by
  decide

/-- Every copy number the parser's loop steps past is taken. -/
theorem freshCopyNum_min (table : Items) (item_id : String) :
    ∀ fuel k j, k ≤ j → j < WantsProcessing.freshCopyNum table item_id k fuel →
      (table.lookup (WantsProcessing.mkCopyId item_id j)).isSome = true := by
  intro fuel
  induction fuel with
  | zero =>
    intro k j hkj hj
    unfold WantsProcessing.freshCopyNum at hj
    omega
  | succ n ih =>
    intro k j hkj hj
    unfold WantsProcessing.freshCopyNum at hj
    by_cases hs : (table.lookup (WantsProcessing.mkCopyId item_id k)).isSome = true
    · rw [if_pos hs] at hj
      rcases Nat.eq_or_lt_of_le hkj with rfl | hlt
      · exact hs
      · exact ih (k + 1) j hlt hj
    · rw [if_neg hs] at hj
      omega

/-- When a free copy number exists within the fuel bound, the parser's
loop stops at a free one. -/
theorem freshCopyNum_free (table : Items) (item_id : String) :
    ∀ fuel k, (∃ j, k ≤ j ∧ j < k + fuel ∧
        (table.lookup (WantsProcessing.mkCopyId item_id j)).isSome = false) →
      (table.lookup (WantsProcessing.mkCopyId item_id
        (WantsProcessing.freshCopyNum table item_id k fuel))).isSome = false := by
  intro fuel
  induction fuel with
  | zero =>
    intro k h
    obtain ⟨j, hkj, hjlt, -⟩ := h
    omega
  | succ n ih =>
    intro k h
    obtain ⟨j, hkj, hjlt, hnone⟩ := h
    unfold WantsProcessing.freshCopyNum
    by_cases hs : (table.lookup (WantsProcessing.mkCopyId item_id k)).isSome = true
    · rw [if_pos hs]
      refine ih (k + 1) ⟨j, ?_, by omega, hnone⟩
      rcases Nat.eq_or_lt_of_le hkj with rfl | hlt
      · rw [hs] at hnone; cases hnone
      · omega
    · rw [if_neg hs]
      exact Bool.eq_false_iff.mpr hs

/-- C6 (amended): a duplicate insertion in the official-names section is
always stored under `-COPY<k>` — even when the new owner equals the
recorded owner — with `k` minimal among the free copy numbers; at offer
lines a same-owner re-insertion leaves the table unchanged while a
different-owner re-insertion is copy-suffixed the same way. -/
theorem claim_C6_amended (table : Items) (item_id item_name owner current_user : String) :
    ((table.lookup item_id).isSome = true →
        WantsProcessing.official_names_insert table item_id item_name owner =
          table ++ [(WantsProcessing.mkCopyId item_id (WantsProcessing.copyNum table item_id),
            ⟨item_name, owner⟩)])
  ∧ (∀ j, 1 ≤ j → j < WantsProcessing.copyNum table item_id →
        (table.lookup (WantsProcessing.mkCopyId item_id j)).isSome = true)
  ∧ ((∃ j, 1 ≤ j ∧ j < table.length + 2 ∧
        (table.lookup (WantsProcessing.mkCopyId item_id j)).isSome = false) →
      (table.lookup (WantsProcessing.mkCopyId item_id
        (WantsProcessing.copyNum table item_id))).isSome = false)
  ∧ (table.lookup item_id = none →
      WantsProcessing.offer_insert table item_id current_user =
        (table ++ [(item_id, ⟨item_id, current_user⟩)], item_id))
  ∧ (∀ info, table.lookup item_id = some info → info.owner = current_user →
      WantsProcessing.offer_insert table item_id current_user = (table, item_id))
  ∧ (∀ info, table.lookup item_id = some info → info.owner ≠ current_user →
      WantsProcessing.offer_insert table item_id current_user =
        (table ++ [(WantsProcessing.mkCopyId item_id (WantsProcessing.copyNum table item_id),
            ⟨WantsProcessing.mkCopyId item_id (WantsProcessing.copyNum table item_id),
              current_user⟩)],
          WantsProcessing.mkCopyId item_id (WantsProcessing.copyNum table item_id))) := by
  refine ⟨?_, ?_, ?_, ?_, ?_, ?_⟩
  · intro h
    unfold WantsProcessing.official_names_insert
    rw [if_pos h]
  · intro j h1 hj
    exact freshCopyNum_min table item_id (table.length + 1) 1 j h1 hj
  · intro h
    refine freshCopyNum_free table item_id (table.length + 1) 1 ?_
    obtain ⟨j, h1, h2, h3⟩ := h
    exact ⟨j, h1, by omega, h3⟩
  · intro h
    unfold WantsProcessing.offer_insert
    rw [h]
  · intro info hs how
    unfold WantsProcessing.offer_insert
    rw [hs]
    dsimp only
    rw [if_neg (by simp [how])]
  · intro info hs how
    unfold WantsProcessing.offer_insert
    rw [hs]
    dsimp only
    rw [if_pos how]

/-- Witness for C6 on concrete parser tables. -/
theorem claim_C6_witness :
    (WantsProcessing.official_names_insert dupTable2 "X" "n" "alice" =
      dupTable2 ++ [(WantsProcessing.mkCopyId "X" (WantsProcessing.copyNum dupTable2 "X"),
        ⟨"n", "alice"⟩)])
  ∧ (dupTable2.lookup (WantsProcessing.mkCopyId "X" 1)).isSome = true
  ∧ (dupTable2.lookup (WantsProcessing.mkCopyId "X"
      (WantsProcessing.copyNum dupTable2 "X"))).isSome = false
  ∧ WantsProcessing.offer_insert dupTable "NEW" "alice" =
      (dupTable ++ [("NEW", ⟨"NEW", "alice"⟩)], "NEW")
  ∧ WantsProcessing.offer_insert dupTable "2024-GAME" "alice" = (dupTable, "2024-GAME")
  ∧ WantsProcessing.offer_insert dupTable "2024-GAME" "bob" =
      (dupTable ++ [(WantsProcessing.mkCopyId "2024-GAME"
          (WantsProcessing.copyNum dupTable "2024-GAME"),
        ⟨WantsProcessing.mkCopyId "2024-GAME"
          (WantsProcessing.copyNum dupTable "2024-GAME"), "bob"⟩)],
        WantsProcessing.mkCopyId "2024-GAME"
          (WantsProcessing.copyNum dupTable "2024-GAME")) :=
  ⟨(claim_C6_amended dupTable2 "X" "n" "alice" "alice").1 (by decide),
   (claim_C6_amended dupTable2 "X" "n" "alice" "alice").2.1 1 (by decide) (by decide),
   (claim_C6_amended dupTable2 "X" "n" "alice" "alice").2.2.1 ⟨2, by decide, by decide, by decide⟩,
   (claim_C6_amended dupTable "NEW" "n" "alice" "alice").2.2.2.1 (by decide),
   (claim_C6_amended dupTable "2024-GAME" "Gra" "alice" "alice").2.2.2.2.1
     ⟨"Gra", "alice"⟩ (by decide) (by decide),
   (claim_C6_amended dupTable "2024-GAME" "Gra" "alice" "bob").2.2.2.2.2
     ⟨"Gra", "alice"⟩ (by decide) (by decide)⟩

/-- C6 counterexample: re-inserting an official-names id with the same
owner is not idempotent — the parser still appends a `-COPY1` entry. -/
theorem claim_C6_counterexample :
    WantsProcessing.official_names_insert dupTable "2024-GAME" "Gra" "alice" =
      [("2024-GAME", ⟨"Gra", "alice"⟩), ("2024-GAME-COPY1", ⟨"Gra", "alice"⟩)]
  ∧ WantsProcessing.official_names_insert dupTable "2024-GAME" "Gra" "alice" ≠ dupTable := by
  decide

/-- Every element of the tail of an edge chain has a predecessor in the
chain. -/
theorem chain'_tail_pred {R : α → α → Prop} :
    ∀ l : List α, List.Chain' R l → ∀ v ∈ l.tail, ∃ u ∈ l, R u v := by
  intro l
  induction l with
  | nil => intro _ v hv; simp at hv
  | cons a t ih =>
    intro hch v hv
    simp only [List.tail_cons] at hv
    cases t with
    | nil => simp at hv
    | cons b t' =>
      rw [List.chain'_cons] at hch
      rcases List.mem_cons.mp hv with rfl | hv'
      · exact ⟨a, List.mem_cons_self _ _, hch.1⟩
      · obtain ⟨u, hu, hR⟩ := ih hch.2 v hv'
        exact ⟨u, List.mem_cons_of_mem _ hu, hR⟩

/-- On a simple cycle, every vertex has an incoming edge from a vertex of
the cycle. -/
theorem cycle_vertex_has_incoming {edges : List (α × α)} {c : List α}
    (h : IsCycleOf edges c) : ∀ v ∈ c, ∃ u ∈ c, (u, v) ∈ edges := by
  obtain ⟨hne, -, hch, hwrap⟩ := h
  intro v hv
  cases c with
  | nil => simp at hv
  | cons a t =>
    rcases List.mem_cons.mp hv with rfl | hv'
    · refine ⟨(v :: t).getLast (by simp), List.getLast_mem _, ?_⟩
      exact hwrap _ (by rw [List.getLast?_eq_getLast_of_ne_nil (by simp)]; rfl) v (by simp)
    · exact chain'_tail_pred (a :: t) hch v (by simpa using hv')

/-- An edge chain whose relation can be strengthened on members of the
list stays a chain for the stronger relation. -/
theorem chain'_imp_mem {R S : α → α → Prop} :
    ∀ l : List α, List.Chain' R l → (∀ a ∈ l, ∀ b ∈ l, R a b → S a b) →
      List.Chain' S l := by
  intro l
  induction l with
  | nil => intro _ _; exact List.chain'_nil
  | cons a t ih =>
    intro hch hst
    cases t with
    | nil => exact List.chain'_singleton a
    | cons b t' =>
      rw [List.chain'_cons] at hch ⊢
      refine ⟨hst a (by simp) b (by simp) hch.1, ?_⟩
      exact ih hch.2 (fun x hx y hy => hst x (List.mem_cons_of_mem _ hx)
        y (List.mem_cons_of_mem _ hy))

/-- Growing the edge list preserves the cycle predicate. -/
theorem IsCycleOf_mono {edges bigger : List (α × α)} {c : List α}
    (hsub : ∀ e ∈ edges, e ∈ bigger) (h : IsCycleOf edges c) : IsCycleOf bigger c := by
  obtain ⟨hne, hnd, hch, hwrap⟩ := h
  exact ⟨hne, hnd, hch.imp (fun a b hab => hsub _ hab),
    fun x hx y hy => hsub _ (hwrap x hx y hy)⟩

/-- A vertex with an incoming edge has nonzero in-degree. -/
theorem in_degree_ne_zero_of_incoming {G : Digraph String} {u v : String}
    (h : (u, v) ∈ G.edges) : in_degree G v ≠ 0 := by
  unfold in_degree
  have : (u, v) ∈ G.edges.filter (fun e => decide (e.2 = v)) :=
    List.mem_filter.mpr ⟨h, by simp⟩
  have hpos := List.length_pos.mpr (List.ne_nil_of_mem this)
  omega

/-- C9: the weed-out pass removes from the graph exactly the vertices of
in-degree 0, removes exactly those ids from the item-owner and item-name
tables, and preserves the simple cycles of the graph in both directions. -/
theorem claim_C9_weed_out (G : Digraph String)
    (item_owner item_name : List (String × String)) :
    (Tradegenie.weed_out_unwanted_items G item_owner item_name).1.nodes =
      G.nodes.filter (fun v => decide (in_degree G v ≠ 0))
  ∧ (∀ p, p ∈ (Tradegenie.weed_out_unwanted_items G item_owner item_name).2.1 ↔
      p ∈ item_owner ∧ ¬(p.1 ∈ G.nodes ∧ in_degree G p.1 = 0))
  ∧ (∀ p, p ∈ (Tradegenie.weed_out_unwanted_items G item_owner item_name).2.2 ↔
      p ∈ item_name ∧ ¬(p.1 ∈ G.nodes ∧ in_degree G p.1 = 0))
  ∧ (∀ c, IsCycleOf G.edges c ↔
      IsCycleOf (Tradegenie.weed_out_unwanted_items G item_owner item_name).1.edges c) := by
  have hrm : ∀ v, v ∈ G.nodes.filter (fun v => decide (in_degree G v = 0)) ↔
      v ∈ G.nodes ∧ in_degree G v = 0 := by
    intro v
    rw [List.mem_filter]
    simp
  unfold Tradegenie.weed_out_unwanted_items
  dsimp only
  refine ⟨?_, ?_, ?_, ?_⟩
  · refine List.filter_congr ?_
    intro v hv
    rw [decide_eq_decide]
    constructor
    · intro hnot
      intro h0
      exact hnot ((hrm v).mpr ⟨hv, h0⟩)
    · intro hne hmem
      exact hne ((hrm v).mp hmem).2
  · intro p
    rw [List.mem_filter]
    simp only [decide_eq_true_eq]
    constructor
    · rintro ⟨hp, hnot⟩
      exact ⟨hp, fun hc => hnot ((hrm p.1).mpr hc)⟩
    · rintro ⟨hp, hnot⟩
      exact ⟨hp, fun hc => hnot ((hrm p.1).mp hc)⟩
  · intro p
    rw [List.mem_filter]
    simp only [decide_eq_true_eq]
    constructor
    · rintro ⟨hp, hnot⟩
      exact ⟨hp, fun hc => hnot ((hrm p.1).mpr hc)⟩
    · rintro ⟨hp, hnot⟩
      exact ⟨hp, fun hc => hnot ((hrm p.1).mp hc)⟩
  · intro c
    constructor
    · intro h
      obtain ⟨hne, hnd, hch, hwrap⟩ := h
      have hkeep : ∀ a ∈ c, ∀ b ∈ c, (a, b) ∈ G.edges →
          (a, b) ∈ G.edges.filter (fun e => decide
            (e.1 ∉ G.nodes.filter (fun v => decide (in_degree G v = 0)) ∧
             e.2 ∉ G.nodes.filter (fun v => decide (in_degree G v = 0)))) := by
        intro a ha b hb hab
        refine List.mem_filter.mpr ⟨hab, ?_⟩
        rw [decide_eq_true_eq]
        obtain ⟨ua, -, hua⟩ := cycle_vertex_has_incoming ⟨hne, hnd, hch, hwrap⟩ a ha
        obtain ⟨ub, -, hub⟩ := cycle_vertex_has_incoming ⟨hne, hnd, hch, hwrap⟩ b hb
        constructor
        · intro hmem
          exact in_degree_ne_zero_of_incoming hua ((hrm a).mp hmem).2
        · intro hmem
          exact in_degree_ne_zero_of_incoming hub ((hrm b).mp hmem).2
      refine ⟨hne, hnd, ?_, ?_⟩
      · exact chain'_imp_mem c hch (fun a ha b hb hab => hkeep a ha b hb hab)
      · intro x hx y hy
        have hxlm : x ∈ c := by
          cases c with
          | nil => simp at hx
          | cons a t =>
            rw [List.getLast?_eq_getLast_of_ne_nil (by simp)] at hx
            simp only [Option.mem_def, Option.some.injEq] at hx
            subst hx
            exact List.getLast_mem _
        have hylm : y ∈ c := by
          cases c with
          | nil => simp at hy
          | cons a t =>
            simp only [List.head?_cons, Option.mem_def, Option.some.injEq] at hy
            subst hy
            exact List.mem_cons_self _ _
        exact hkeep x hxlm y hylm (hwrap x hx y hy)
    · intro h
      refine IsCycleOf_mono ?_ h
      intro e he
      exact (List.mem_filter.mp he).1

/-- Reading a whole list back through `getD` over its index range. -/
theorem range_map_getD {β : Type} :
    ∀ (l : List β) (d : β), (List.range l.length).map (fun i => l.getD i d) = l := by
  intro l
  induction l with
  | nil => intro d; rfl
  | cons a t ih =>
    intro d
    rw [List.length_cons, List.range_succ_eq_map, List.map_cons, List.map_map]
    simp only [List.getD_cons_zero, Function.comp_def, List.getD_cons_succ]
    rw [ih d]

/-- A list with two distinct members has at least two elements. -/
theorem two_distinct_mem_le {β : Type} {l : List β} {i j : β}
    (hi : i ∈ l) (hj : j ∈ l) (hne : i ≠ j) : 2 ≤ l.length := by
  rcases l with - | ⟨a, - | ⟨b, t⟩⟩
  · simp at hi
  · simp at hi hj
    subst hi; subst hj
    exact absurd rfl hne
  · rw [List.length_cons, List.length_cons]
    omega

/-- Indices selected by a feasible assignment of the cycle ILP pick
pairwise item-disjoint cycles. -/
theorem lp_selected_pairwise (cycles : List (List String)) (x : List Bool)
    (hlp : Tradegenie.LPItemDisjoint cycles x) :
    (Tradegenie.selected_indices cycles x).Pairwise
      (fun i j => (cycles.getD i []).Disjoint (cycles.getD j [])) := by
  have hlt : (Tradegenie.selected_indices cycles x).Pairwise (· < ·) :=
    (List.pairwise_lt_range _).filter _
  refine hlt.imp_of_mem ?_
  intro i j hi hj hij
  intro item hitem_i hitem_j
  have hi' := List.mem_filter.mp hi
  have hj' := List.mem_filter.mp hj
  have hilen : i < cycles.length := List.mem_range.mp hi'.1
  have hflat : item ∈ cycles.flatten := by
    rw [List.mem_flatten]
    refine ⟨cycles.getD i [], ?_, hitem_i⟩
    rw [List.getD_eq_getElem cycles [] hilen]
    exact List.getElem_mem hilen
  have hcount := hlp item hflat
  have hmi : i ∈ (List.range cycles.length).filter
      (fun k => x.getD k false && decide (item ∈ cycles.getD k [])) :=
    List.mem_filter.mpr ⟨hi'.1, by rw [Bool.and_eq_true, decide_eq_true_eq]
                                   exact ⟨hi'.2, hitem_i⟩⟩
  have hmj : j ∈ (List.range cycles.length).filter
      (fun k => x.getD k false && decide (item ∈ cycles.getD k [])) :=
    List.mem_filter.mpr ⟨hj'.1, by rw [Bool.and_eq_true, decide_eq_true_eq]
                                   exact ⟨hj'.2, hitem_j⟩⟩
  have h2 := two_distinct_mem_le hmi hmj (Nat.ne_of_lt hij)
  omega

/-- The records built for one valid greedy cycle give away exactly the
cycle's items, in order. -/
theorem cycle_exchanges_map_given (ownership : List (String × String))
    (cycle : List String) (tmp : List Greedy.Exchange)
    (h : Greedy.cycle_exchanges ownership cycle = some tmp) :
    tmp.map (fun e => e.item_given) = cycle := by
  unfold Greedy.cycle_exchanges at h
  dsimp only at h
  split at h
  · rw [Option.some.injEq] at h
    subst h
    rw [List.map_map]
    exact range_map_getD cycle ""
  · cases h

/-- The invariant carried through the greedy packing loop: the committed
given-items are duplicate-free and all marked assigned. -/
theorem pack_step_inv (ownership : List (String × String))
    (st : List Greedy.Exchange × List String) (cycle : List String)
    (hc : cycle.Nodup)
    (hinv : (st.1.map (fun e => e.item_given)).Nodup ∧
      ∀ s ∈ st.1.map (fun e => e.item_given), s ∈ st.2) :
    ((Greedy.pack_step ownership st cycle).1.map (fun e => e.item_given)).Nodup ∧
      ∀ s ∈ (Greedy.pack_step ownership st cycle).1.map (fun e => e.item_given),
        s ∈ (Greedy.pack_step ownership st cycle).2 := by
  unfold Greedy.pack_step
  by_cases hany : cycle.any (fun item => decide (item ∈ st.2)) = true
  · rw [if_pos hany]
    exact hinv
  · rw [if_neg hany]
    have hfresh : ∀ item ∈ cycle, item ∉ st.2 := by
      rw [Bool.not_eq_true, List.any_eq_false] at hany
      intro item hitem
      have := hany item hitem
      simpa using this
    cases hx : Greedy.cycle_exchanges ownership cycle with
    | none => exact hinv
    | some tmp =>
      dsimp only
      have hmap := cycle_exchanges_map_given ownership cycle tmp hx
      constructor
      · rw [List.map_append, hmap, List.nodup_append]
        refine ⟨hinv.1, hc, ?_⟩
        intro s hs hscyc
        exact hfresh s hscyc (hinv.2 s hs)
      · intro s hs
        rw [List.map_append, hmap, List.mem_append] at hs
        rcases hs with hs | hs
        · exact List.mem_append.mpr (Or.inl (hinv.2 s hs))
        · exact List.mem_append.mpr (Or.inr hs)

/-- The packing invariant holds after folding any cycle list. -/
theorem pack_fold_inv (ownership : List (String × String)) :
    ∀ (cycles : List (List String)) (st : List Greedy.Exchange × List String),
      (∀ c ∈ cycles, c.Nodup) →
      ((st.1.map (fun e => e.item_given)).Nodup ∧
        ∀ s ∈ st.1.map (fun e => e.item_given), s ∈ st.2) →
      (((cycles.foldl (Greedy.pack_step ownership) st).1.map
          (fun e => e.item_given)).Nodup ∧
        ∀ s ∈ (cycles.foldl (Greedy.pack_step ownership) st).1.map
            (fun e => e.item_given),
          s ∈ (cycles.foldl (Greedy.pack_step ownership) st).2) := by
  intro cycles
  induction cycles with
  | nil => intro st _ hinv; exact hinv
  | cons c cs ih =>
    intro st hnd hinv
    exact ih _ (fun c' hc' => hnd c' (List.mem_cons_of_mem _ hc'))
      (pack_step_inv ownership st c (hnd c (List.mem_cons_self _ _)) hinv)

/-- The invariant carried through the crossover merge: the child's items
are duplicate-free and all marked used. -/
theorem crossover_fold_inv :
    ∀ (cycles : List (List String)) (st : List (List String) × List String),
      (∀ c ∈ cycles, c.Nodup) →
      (st.1.flatten.Nodup ∧ ∀ s ∈ st.1.flatten, s ∈ st.2) →
      ((cycles.foldl GeneticMax.crossover_step st).1.flatten.Nodup ∧
        ∀ s ∈ (cycles.foldl GeneticMax.crossover_step st).1.flatten,
          s ∈ (cycles.foldl GeneticMax.crossover_step st).2) := by
  intro cycles
  induction cycles with
  | nil => intro st _ hinv; exact hinv
  | cons c cs ih =>
    intro st hnd hinv
    refine ih _ (fun c' hc' => hnd c' (List.mem_cons_of_mem _ hc')) ?_
    unfold GeneticMax.crossover_step
    by_cases hany : c.any (fun item => decide (item ∈ st.2)) = true
    · rw [if_pos hany]
      exact hinv
    · rw [if_neg hany]
      have hfresh : ∀ item ∈ c, item ∉ st.2 := by
        rw [Bool.not_eq_true, List.any_eq_false] at hany
        intro item hitem
        have := hany item hitem
        simpa using this
      dsimp only
      constructor
      · rw [List.flatten_append, List.flatten_cons, List.flatten_nil, List.append_nil,
          List.nodup_append]
        refine ⟨hinv.1, hnd c (List.mem_cons_self _ _), ?_⟩
        intro s hs hscyc
        exact hfresh s hscyc (hinv.2 s hs)
      · intro s hs
        rw [List.flatten_append, List.flatten_cons, List.flatten_nil, List.append_nil,
          List.mem_append] at hs
        rcases hs with hs | hs
        · exact List.mem_append.mpr (Or.inl (hinv.2 s hs))
        · exact List.mem_append.mpr (Or.inr hs)

/-- C3: the cycles picked by a feasible cycle-ILP assignment are pairwise
item-disjoint (their concatenation has no repeated item id); the greedy
loop never gives the same item away twice across its exchange records;
and a crossover child of any two chromosomes of simple cycles uses every
item at most once. -/
theorem claim_C3_selected_cycles_disjoint (cycles : List (List String)) (x : List Bool)
    (ownership : List (String × String)) (p1 p2 : List (List String))
    (hnd : ∀ c ∈ cycles, c.Nodup) (hlp : Tradegenie.LPItemDisjoint cycles x)
    (hp : ∀ c ∈ p1 ++ p2, c.Nodup) :
    (((Tradegenie.selected_indices cycles x).map (fun i => cycles.getD i [])).flatten).Nodup
  ∧ ((Greedy.pack ownership cycles).1.map (fun e => e.item_given)).Nodup
  ∧ (GeneticMax.crossover p1 p2).flatten.Nodup := by
  refine ⟨?_, ?_, ?_⟩
  · rw [List.nodup_flatten]
    constructor
    · intro l hl
      rw [List.mem_map] at hl
      obtain ⟨i, hi, rfl⟩ := hl
      have hilen : i < cycles.length :=
        List.mem_range.mp (List.mem_filter.mp hi).1
      rw [List.getD_eq_getElem cycles [] hilen]
      exact hnd _ (List.getElem_mem hilen)
    · rw [List.pairwise_map]
      exact lp_selected_pairwise cycles x hlp
  · exact (pack_fold_inv ownership cycles ([], []) hnd
      (by constructor <;> simp)).1
  · unfold GeneticMax.crossover
    refine (crossover_fold_inv p2 _ (fun c hc => hp c (List.mem_append.mpr (Or.inr hc))) ?_).1
    exact crossover_fold_inv p1 ([], [])
      (fun c hc => hp c (List.mem_append.mpr (Or.inl hc)))
      (by constructor <;> simp)

/-- Witness for C3 on two overlapping 2-cycles and two concrete parents. -/
theorem claim_C3_witness :
    (((Tradegenie.selected_indices [["i1", "i2"], ["i2", "i3"]] [true, false]).map
        (fun i => [["i1", "i2"], ["i2", "i3"]].getD i [])).flatten).Nodup
  ∧ ((Greedy.pack [("i1", "a"), ("i2", "b"), ("i3", "c")]
        [["i1", "i2"], ["i2", "i3"]]).1.map (fun e => e.item_given)).Nodup
  ∧ (GeneticMax.crossover [["a1", "a2"]] [["a2", "a3"], ["b1"]]).flatten.Nodup :=
  claim_C3_selected_cycles_disjoint [["i1", "i2"], ["i2", "i3"]] [true, false]
    [("i1", "a"), ("i2", "b"), ("i3", "c")] [["a1", "a2"]] [["a2", "a3"], ["b1"]]
    (by decide) (by decide) (by decide)

end MathTrade
